import Mathlib

/-
Shallow embedding of the data-cleaning pipeline of the repository
(src/cleaner.py and src/exporter.py), together with proofs checking the
natural-language specification against it.

Modelling conventions:
* A pandas cell is `Cell := Option String`: `none` is the NaN / missing
  marker, `some s` a string value (the CSV data is textual).
* A DataFrame is column-major: an ordered association list from column
  name to the list of the column's cells.
* The external library `ftfy.fix_text` is not part of the repository; it
  is passed as an explicit `String → String` parameter.
* Python `str.strip()` is modelled as stripping the ASCII whitespace
  characters; Python additionally strips some rare Unicode whitespace
  characters which never occur in the properties below.
-/

/-- Characters removed by Python `str.strip()` (ASCII part). -/
def pyWhite (c : Char) : Bool :=
  c == ' ' || c == '\t' || c == '\n' || c == '\r' || c == '\x0b' || c == '\x0c'

/-- Remove the trailing run of characters satisfying `p`. -/
def dropTrailingIf (p : Char → Bool) : List Char → List Char
  | [] => []
  | c :: cs =>
    match dropTrailingIf p cs with
    | [] => if p c then [] else [c]
    | r => c :: r

/-- Remove the leading and the trailing run of characters satisfying `p`. -/
def stripIf (p : Char → Bool) (l : List Char) : List Char :=
  dropTrailingIf p (l.dropWhile p)

/-- Python `str.strip()` with no argument: trim whitespace at both ends. -/
def pyStrip (s : String) : String := String.mk (stripIf pyWhite s.data)

/-- Python `str.replace(a, b)` for single-character `a`, `b`. -/
def replaceChar (a b : Char) (s : String) : String :=
  String.mk (s.data.map (fun c => if c == a then b else c))

/-- A pandas scalar cell: `none` is NaN, `some s` a string value. -/
abbrev Cell := Option String

/-- src/cleaner.py `fix_encoding`: on a string, apply `ftfy.fix_text`
(the external encoding-repair library, a parameter here), replace
non-breaking space U+00A0 with a space, en-dash U+2013 and em-dash U+2014
with a hyphen, each pipe character with a space, and strip whitespace;
a non-string value (NaN) is returned unchanged. -/
def fix_encoding (ftfy : String → String) : Cell → Cell
  | some text =>
    let t1 := ftfy text
    let t2 := replaceChar '\u00a0' ' ' t1
    let t3 := replaceChar '\u2013' '-' t2
    let t4 := replaceChar '\u2014' '-' t3
    let t5 := replaceChar '|' ' ' t4
    some (pyStrip t5)
  | none => none

/-- The regex class `[a-zA-Z0-9\-\.]` of src/exporter.py `sanitize_id`,
stated on code points: a-z is 97-122, A-Z is 65-90, 0-9 is 48-57,
hyphen is 45, dot is 46. -/
def keepChar (c : Char) : Bool :=
  (97 ≤ c.toNat && c.toNat ≤ 122) || (65 ≤ c.toNat && c.toNat ≤ 90) ||
    (48 ≤ c.toNat && c.toNat ≤ 57) || c.toNat == 45 || c.toNat == 46

/-- Python `str.lower()` on one character.  Exact on ASCII and on the two
Unicode characters whose lowercase form is an ASCII letter (U+212A KELVIN
SIGN and U+017F LATIN SMALL LETTER LONG S); other characters are left
unchanged, which never changes the value of the functions below on the
inputs reasoned about, since such characters lie outside every retained
character class both before and after lowercasing. -/
def pyLowerChar (c : Char) : Char :=
  if 65 ≤ c.toNat && c.toNat ≤ 90 then Char.ofNat (c.toNat + 32)
  else if c == '\u212a' then 'k'
  else if c == '\u017f' then 's'
  else c

/-- The regex replacement `re.sub(r'-+', '-', s)`: collapse every run of
hyphens to a single hyphen. -/
def collapseHyphens : List Char → List Char
  | [] => []
  | [c] => [c]
  | a :: b :: rest =>
    if a == '-' && b == '-' then collapseHyphens (b :: rest)
    else a :: collapseHyphens (b :: rest)

/-- src/exporter.py `sanitize_id`: replace every character outside
`[a-zA-Z0-9\-\.]` with a hyphen, lowercase the result, collapse runs of
hyphens, and strip leading/trailing hyphens. -/
def sanitize_id (text : String) : String :=
  let replaced := text.data.map (fun c => if keepChar c then c else '-')
  let lowered := replaced.map pyLowerChar
  String.mk (stripIf (· == '-') (collapseHyphens lowered))

/-- The lowercase character class `[a-z0-9\-.]` named by the spec. -/
def specKeep (c : Char) : Bool :=
  (97 ≤ c.toNat && c.toNat ≤ 122) || (48 ≤ c.toNat && c.toNat ≤ 57) ||
    c.toNat == 45 || c.toNat == 46

/-- Replace every run of characters outside `[a-z0-9\-.]` by one hyphen;
the Boolean records whether the previous character was part of such a
run (so the run contributes only one hyphen). -/
def replaceRunsAux : Bool → List Char → List Char
  | _, [] => []
  | inRun, c :: rest =>
    if specKeep c then c :: replaceRunsAux false rest
    else if inRun then replaceRunsAux true rest
    else '-' :: replaceRunsAux true rest

/-- Replace every run of characters outside `[a-z0-9\-.]` by one hyphen. -/
def replaceRuns (l : List Char) : List Char := replaceRunsAux false l

/-- Modelled from the spec: the reference sanitizer of spec section 4.2,
which FIRST lowercases the string, THEN replaces every run of characters
outside `[a-z0-9\-.]` with a single hyphen, collapses consecutive hyphens
into one, and strips leading/trailing hyphens. -/
def specSanitize (text : String) : String :=
  String.mk (stripIf (· == '-') (collapseHyphens (replaceRuns (text.data.map pyLowerChar))))

/-- A pandas DataFrame, column-major: ordered columns, each a name with
its list of cells.  Real DataFrames are rectangular; the theorems below
are stated so that they do not depend on ragged tables, and every
concrete table used in them is rectangular. -/
abbrev Table := List (String × List Cell)

/-- Column membership test (`c in df.columns`). -/
def Table.hasCol (t : Table) (c : String) : Bool := t.any (fun p => p.1 == c)

/-- Column extraction (`df[c]`); the empty list when the column is absent. -/
def Table.getCol (t : Table) (c : String) : List Cell :=
  match t.find? (fun p => p.1 == c) with
  | some p => p.2
  | none => []

/-- Row count of a rectangular table (length of its first column). -/
def Table.nrows (t : Table) : Nat :=
  match t with
  | [] => 0
  | p :: _ => p.2.length

/-- The cell in column `c`, row `i` (`df[c][i]`); NaN when out of range
or when the column is absent. -/
def Table.cellAt (t : Table) (c : String) (i : Nat) : Cell :=
  (Table.getCol t c).getD i none

/-- src/cleaner.py lines 38-43: the alias priority lists of the four
canonical columns, and the interview-description column of line 85. -/
def oddeleniAliases : List String := ["oddeleni", "Oddělení", "Útvar/oddělení", "Úsek/oddělení"]

def procesAliases : List String := ["proces", "Název procesu", "Procesy", "Proces"]

def popisAliases : List String := ["popis_procesu", "Popis procesu", "Popis procesu v organizačním řádu OPZ"]

def vazbaAliases : List String := ["vazba_na_org_rad", "Vazba na Organizační řád IO"]

def interviewCol : String := "Popis na základě rozhovoru"

/-- Effective row count of the frame built by `clean_dataframe`.  pandas
fixes the index of the new frame at the first column assignment: the
first assignment is a real column (a Series carrying the source index)
exactly when an `email`/`telephone_number` column or an `oddeleni` alias
is present; otherwise the first assignment is the scalar `None` into an
empty frame, the index stays empty, and every later Series assignment
aligns to that empty index, so the frame keeps zero rows. -/
def effRows (df : Table) : Nat :=
  if Table.hasCol df "email" || Table.hasCol df "telephone_number" ||
      oddeleniAliases.any (Table.hasCol df) then Table.nrows df else 0

/-- src/cleaner.py lines 53-103 (except description): the first alias
present wins; otherwise the column is the scalar `None`, broadcast over
the frame's index. -/
def pickCol (df : Table) (n : Nat) (aliases : List String) : List Cell :=
  match aliases.find? (fun a => Table.hasCol df a) with
  | some a => Table.getCol df a
  | none => List.replicate n none

/-- `Series.fillna("")` on one cell. -/
def cellFill : Cell → String
  | none => ""
  | some s => s

/-- src/cleaner.py lines 74-93: the description column; when the
interview column is present its values are concatenated (with a space)
onto the already-selected description values, both sides `fillna("")`. -/
def popisColumn (df : Table) (n : Nat) : List Cell :=
  let base := popisAliases.find? (fun a => Table.hasCol df a)
  if Table.hasCol df interviewCol then
    match base with
    | some a => List.zipWith (fun x y => some (cellFill x ++ " " ++ cellFill y))
        (Table.getCol df a) (Table.getCol df interviewCol)
    | none => Table.getCol df interviewCol
  else
    match base with
    | some a => Table.getCol df a
    | none => List.replicate n none

/-- One row of the canonical frame built by `clean_dataframe`: the four
canonical cells plus the two optional contact cells. -/
structure CRow where
  odd : Cell
  pro : Cell
  pop : Cell
  vaz : Cell
  eml : Cell
  tel : Cell
  deriving DecidableEq, Repr

/-- Zip six equally long columns into rows (truncating at the shortest). -/
def zipRows : List Cell → List Cell → List Cell → List Cell → List Cell → List Cell → List CRow
  | a :: as, b :: bs, c :: cs, d :: ds, e :: es, f :: fs =>
    ⟨a, b, c, d, e, f⟩ :: zipRows as bs cs ds es fs
  | _, _, _, _, _, _ => []

/-- The rows of the new frame right after column selection
(src/cleaner.py lines 45-103); an absent contact column is a dummy NaN
column here and is replaced by an empty-string column at the end. -/
def midRows (df : Table) : List CRow :=
  let n := effRows df
  zipRows (pickCol df n oddeleniAliases) (pickCol df n procesAliases)
    (popisColumn df n) (pickCol df n vazbaAliases)
    (if Table.hasCol df "email" then Table.getCol df "email" else List.replicate n none)
    (if Table.hasCol df "telephone_number" then Table.getCol df "telephone_number"
     else List.replicate n none)

/-- `new_df.fillna("")` on one row (src/cleaner.py line 106). -/
def fillRow (r : CRow) : CRow :=
  ⟨some (cellFill r.odd), some (cellFill r.pro), some (cellFill r.pop),
    some (cellFill r.vaz), some (cellFill r.eml), some (cellFill r.tel)⟩

/-- `new_df.replace("?", "")` on one cell (src/cleaner.py line 109):
a cell equal to the placeholder string becomes empty. -/
def replaceQCell (c : Cell) : Cell := if c == some "?" then some "" else c

def replaceQRow (r : CRow) : CRow :=
  ⟨replaceQCell r.odd, replaceQCell r.pro, replaceQCell r.pop,
    replaceQCell r.vaz, replaceQCell r.eml, replaceQCell r.tel⟩

/-- src/cleaner.py lines 115-119: a row is kept when at least one of the
four canonical cells differs from the empty string (the optional contact
cells are not counted). -/
def keepRow (r : CRow) : Bool :=
  !(r.odd == some "" && r.pro == some "" && r.pop == some "" && r.vaz == some "")

/-- src/cleaner.py lines 122-124: `fix_encoding` applied to every cell of
every (object-typed) column, the contact columns included. -/
def repairRow (ftfy : String → String) (r : CRow) : CRow :=
  ⟨fix_encoding ftfy r.odd, fix_encoding ftfy r.pro, fix_encoding ftfy r.pop,
    fix_encoding ftfy r.vaz, fix_encoding ftfy r.eml, fix_encoding ftfy r.tel⟩

def processedRows (df : Table) : List CRow :=
  (midRows df).map (fun r => replaceQRow (fillRow r))

def keptRows (df : Table) : List CRow :=
  (processedRows df).filter keepRow

def cleanRows (ftfy : String → String) (df : Table) : List CRow :=
  (keptRows df).map (repairRow ftfy)

/-- src/cleaner.py `clean_dataframe`: select canonical columns by alias,
fill NaN with the empty string, blank the `"?"` placeholder, drop rows
with no non-empty canonical cell, repair text, and emit the six columns
in the fixed order, absent contact columns filled with `""`.  The
`filename` argument is never consulted by the source. -/
def clean_dataframe (ftfy : String → String) (df : Table) (filename : String) : Table :=
  let rows := cleanRows ftfy df
  [("oddeleni", rows.map CRow.odd), ("proces", rows.map CRow.pro),
    ("popis_procesu", rows.map CRow.pop), ("vazba_na_org_rad", rows.map CRow.vaz),
    ("email", if Table.hasCol df "email" then rows.map CRow.eml
      else List.replicate rows.length (some "")),
    ("telephone_number", if Table.hasCol df "telephone_number" then rows.map CRow.tel
      else List.replicate rows.length (some ""))]

/-- Keep the values not seen before, in order (`seen` accumulates). -/
def uniqueAux (seen : List String) : List String → List String
  | [] => []
  | x :: xs =>
    if seen.contains x then uniqueAux seen xs
    else x :: uniqueAux (x :: seen) xs

/-- Distinct values in order of first appearance: pandas `Series.unique`
(and the key set of a pandas groupby, before sorting). -/
def uniqueList (l : List String) : List String := uniqueAux [] l

/-- Lexicographic code-point comparison of strings, the order Python
string comparison uses. -/
def strLtB : List Char → List Char → Bool
  | [], [] => false
  | [], _ :: _ => true
  | _ :: _, [] => false
  | a :: as, b :: bs =>
    if a.toNat < b.toNat then true
    else if b.toNat < a.toNat then false
    else strLtB as bs

def pyStrLt (s t : String) : Bool := strLtB s.data t.data

/-- Insert into an ascending list (code-point order on strings). -/
def insertAsc (x : String) : List String → List String
  | [] => [x]
  | y :: ys => if pyStrLt y x then y :: insertAsc x ys else x :: y :: ys

/-- Ascending insertion sort; models the sorted key order of pandas
`groupby` (whose default is `sort=True`). -/
def sortAsc : List String → List String
  | [] => []
  | x :: xs => insertAsc x (sortAsc xs)

/-- The group keys of a pandas `groupby` over the given cells: NaN keys
are dropped, duplicates removed, and the keys sorted ascending. -/
def colKeys (cells : List Cell) : List String :=
  sortAsc (uniqueList (cells.filterMap id))

def sortedKeys (df : Table) (c : String) : List String :=
  colKeys (Table.getCol df c)

/-- The row indices of the group with key `k` of a groupby over column
`c`, in original row order. -/
def groupIdx (df : Table) (c : String) (k : String) : List Nat :=
  (List.range (Table.nrows df)).filter (fun i => Table.cellAt df c i == some k)

/-- The Organization resource as constructed at src/exporter.py lines
102-119: `partOf` holds the reference string and the display name.  The
`telecoms` list computed at lines 92-97 is never attached to the
Organization by the source, so it does not appear here. -/
structure Organization where
  id : String
  name : String
  active : Bool
  text : String
  partOf : Option (String × String)
  deriving DecidableEq, Repr

/-- The PlanDefinition resource as constructed at src/exporter.py lines
146-153. -/
structure PlanDefinition where
  id : String
  status : String
  name : String
  title : String
  publisher : String
  description : String
  deriving DecidableEq, Repr

inductive DomainResource where
  | org : Organization → DomainResource
  | plan : PlanDefinition → DomainResource
  deriving DecidableEq, Repr

/-- Python truthiness of a cell: NaN is a float and a non-zero float is
truthy; a string is truthy when non-empty. -/
def cellTruthy : Cell → Bool
  | none => true
  | some s => s != ""

/-- Python `str()` of a cell value: `str` of the NaN float is `"nan"`. -/
def cellStr : Cell → String
  | none => "nan"
  | some s => s

/-- src/exporter.py lines 70-71: `df[name_col].unique()[0]` when the
column is non-empty (the first unique value is the first row's value,
NaN included), else `None`. -/
def parentOrgName (df : Table) : Option Cell :=
  (Table.getCol df "oddeleni").head?

/-- src/exporter.py lines 117-119: link to the parent organization when
`parent_org_name` is truthy and differs from this department. -/
def parentRef (parent : Option Cell) (dept : String) : Option (String × String) :=
  match parent with
  | none => none
  | some p =>
    if cellTruthy p && (match p with | none => true | some s => dept != s) then
      some ("Organization/" ++ sanitize_id (cellStr p), cellStr p)
    else none

/-- src/exporter.py line 84: `group[relation_col].dropna().unique()`. -/
def relValues (df : Table) (gidx : List Nat) : List String :=
  uniqueList ((gidx.map (fun i => Table.cellAt df "vazba_na_org_rad" i)).filterMap id)

/-- src/exporter.py lines 81-89: the narrative HTML fragment. -/
def narrativeFor (dept : String) (rels : List String) : String :=
  "<div xmlns=\"http://www.w3.org/1999/xhtml\"><h3>" ++ dept ++ "</h3><ul>" ++
    String.join ((rels.filter (fun r => pyStrip r != "")).map
      (fun r => "<li>" ++ r ++ "</li>")) ++ "</ul></div>"

/-- src/exporter.py lines 133-136: the non-blank description values of
the rows with the given indices, in row order. -/
def processDescs (df : Table) (pidx : List Nat) : List String :=
  pidx.filterMap (fun i =>
    if Table.hasCol df "popis_procesu" then
      match Table.cellAt df "popis_procesu" i with
      | some v => if pyStrip v != "" then some v else none
      | none => none
    else none)

/-- src/exporter.py lines 126-155: the PlanDefinition emitted for one
process group, or nothing when the key is blank or its sanitized name is
empty. -/
def planFor (df : Table) (dept : String) (gidx : List Nat) (proc : String) :
    List DomainResource :=
  if pyStrip proc == "" then []
  else
    let processId := sanitize_id (dept ++ "-" ++ proc)
    let pidx := gidx.filter (fun i => Table.cellAt df "proces" i == some proc)
    let fullDesc := String.intercalate "; " (processDescs df pidx)
    let sanitizedName := sanitize_id proc
    if sanitizedName == "" then []
    else [DomainResource.plan ⟨processId, "active", sanitizedName, proc, dept, fullDesc⟩]

/-- src/exporter.py lines 124-155: the process groups of one department
group, keyed over the group's own `proces` cells. -/
def plansFor (df : Table) (dept : String) (gidx : List Nat) : List DomainResource :=
  if Table.hasCol df "proces" then
    ((colKeys (gidx.map (fun i => Table.cellAt df "proces" i))).map
      (planFor df dept gidx)).flatten
  else []

/-- src/exporter.py lines 74-155, one department group.  A blank key is
skipped (the `pd.isna` test of line 75 is vacuous, NaN keys never leave
the groupby).  Reading `group[relation_col]` at line 84 raises a
`KeyError` when the column is absent. -/
def deptResources (df : Table) (parent : Option Cell) (dept : String) :
    Except String (List DomainResource) :=
  if pyStrip dept == "" then Except.ok []
  else if !Table.hasCol df "vazba_na_org_rad" then
    Except.error "KeyError: vazba_na_org_rad"
  else
    let gidx := groupIdx df "oddeleni" dept
    let org : Organization :=
      { id := sanitize_id dept, name := dept, active := true,
        text := narrativeFor dept (relValues df gidx),
        partOf := parentRef parent dept }
    Except.ok (DomainResource.org org :: plansFor df dept gidx)

def deptLoop (df : Table) (parent : Option Cell) :
    List String → Except String (List DomainResource)
  | [] => Except.ok []
  | k :: ks =>
    match deptResources df parent k with
    | Except.error e => Except.error e
    | Except.ok r =>
      match deptLoop df parent ks with
      | Except.error e => Except.error e
      | Except.ok rest => Except.ok (r ++ rest)

/-- src/exporter.py lines 55-156 for one DataFrame: skipped entirely when
the standardized department column is absent. -/
def tableResources (df : Table) : Except String (List DomainResource) :=
  if !Table.hasCol df "oddeleni" then Except.ok []
  else deptLoop df (parentOrgName df) (sortedKeys df "oddeleni")

/-- src/exporter.py `create_fhir_resources`: all resources of all
DataFrames, in the order the collections were supplied. -/
def create_fhir_resources : List (String × Table) → Except String (List DomainResource)
  | [] => Except.ok []
  | (_, df) :: rest =>
    match tableResources df with
    | Except.error e => Except.error e
    | Except.ok r =>
      match create_fhir_resources rest with
      | Except.error e => Except.error e
      | Except.ok rs => Except.ok (r ++ rs)

/-- The department display names of the Organization resources of a
list, in order. -/
def orgNames : List DomainResource → List String
  | [] => []
  | DomainResource.org o :: rest => o.name :: orgNames rest
  | DomainResource.plan _ :: rest => orgNames rest

/-- The ids of the Organization resources of a list, in order. -/
def orgIds : List DomainResource → List String
  | [] => []
  | DomainResource.org o :: rest => o.id :: orgIds rest
  | DomainResource.plan _ :: rest => orgIds rest

/-- The titles of the PlanDefinition resources of a list, in order. -/
def planTitles : List DomainResource → List String
  | [] => []
  | DomainResource.org _ :: rest => planTitles rest
  | DomainResource.plan p :: rest => p.title :: planTitles rest

/-- The Organization ids of a derivation result (empty on error). -/
def resultOrgIds : Except String (List DomainResource) → List String
  | Except.ok rs => orgIds rs
  | Except.error _ => []

/-- The Organization names of a derivation result (empty on error). -/
def resultOrgNames : Except String (List DomainResource) → List String
  | Except.ok rs => orgNames rs
  | Except.error _ => []

/-- Modelled from the spec: "first-appearance order of the department
value in the table" - the distinct non-blank values of a column in order
of first appearance. -/
def firstAppearanceKeys (df : Table) (c : String) : List String :=
  (uniqueList ((Table.getCol df c).filterMap id)).filter (fun k => pyStrip k != "")

/-- A character the sanitizer retains as itself and that is not a
hyphen, hence survives hyphen collapsing and stripping. -/
def strongKeep (c : Char) : Bool := keepChar c && !(c == '-')

/-- No two consecutive hyphens anywhere in the list. -/
def noDouble : List Char → Bool
  | [] => true
  | [_] => true
  | a :: b :: rest => !(a == '-' && b == '-') && noDouble (b :: rest)

/-- Modelled from the spec: "collect all non-blank description values
across its rows, preserving row order" - the description values of the
rows of the (department, process) group that are non-blank after
trimming, in row order. -/
def specGroupDescs (df : Table) (dept proc : String) : List String :=
  ((List.range (Table.nrows df)).filter (fun i =>
      Table.cellAt df "oddeleni" i == some dept &&
        Table.cellAt df "proces" i == some proc)).filterMap
    (fun i =>
      match Table.cellAt df "popis_procesu" i with
      | some v => if pyStrip v != "" then some v else none
      | none => none)

/- Lemmas about the character-level helpers. -/

theorem char_toNat_ofNat (n : Nat) (h : n < 55296) : (Char.ofNat n).toNat = n := by
  unfold Char.ofNat
  rw [dif_pos (Or.inl h)]
  rfl

theorem dropTrailingIf_eq (p : Char → Bool) (l : List Char) :
    dropTrailingIf p l = (l.reverse.dropWhile p).reverse := by
  induction l with
  | nil => rfl
  | cons c cs ih =>
    rw [dropTrailingIf, List.reverse_cons, List.dropWhile_append]
    by_cases h : (cs.reverse.dropWhile p).isEmpty
    · rw [if_pos h]
      have h2 : dropTrailingIf p cs = [] := by
        rw [ih, List.isEmpty_iff.mp h]; rfl
      rw [h2]
      by_cases hp : p c <;> simp [List.dropWhile, hp]
    · rw [if_neg h]
      have h2 : dropTrailingIf p cs ≠ [] := by
        rw [ih]
        intro hc
        exact h (List.isEmpty_iff.mpr (by simpa using congrArg List.reverse hc))
      rw [List.reverse_append, ← ih]
      cases hr : dropTrailingIf p cs with
      | nil => exact absurd hr h2
      | cons y ys => simp

theorem stripIf_decomp (p : Char → Bool) (l : List Char) :
    ∃ front back, l = front ++ stripIf p l ++ back ∧
      (∀ c ∈ front, p c = true) ∧ (∀ c ∈ back, p c = true) := by
  refine ⟨l.takeWhile p, ((l.dropWhile p).reverse.takeWhile p).reverse, ?_, ?_, ?_⟩
  · rw [stripIf, dropTrailingIf_eq]
    conv_lhs => rw [← List.takeWhile_append_dropWhile p l]
    rw [List.append_assoc]
    congr 1
    conv_lhs => rw [← List.reverse_reverse (l.dropWhile p),
      ← List.takeWhile_append_dropWhile p (l.dropWhile p).reverse]
    rw [List.reverse_append]
  · exact fun c hc => List.mem_takeWhile_imp hc
  · exact fun c hc => List.mem_takeWhile_imp (List.mem_reverse.mp hc)

theorem mem_stripIf {p : Char → Bool} {l : List Char} {x : Char}
    (h : x ∈ stripIf p l) : x ∈ l := by
  obtain ⟨front, back, hl, -, -⟩ := stripIf_decomp p l
  rw [hl]
  simp only [List.mem_append]
  exact Or.inl (Or.inr h)

theorem head_dropWhile_not {p : Char → Bool} {l : List Char} {c : Char} {r : List Char}
    (h : l.dropWhile p = c :: r) : p c = false := by
  induction l with
  | nil => simp [List.dropWhile] at h
  | cons a as ih =>
    rw [List.dropWhile_cons] at h
    by_cases hp : p a
    · rw [if_pos hp] at h; exact ih h
    · rw [if_neg hp] at h
      cases h
      exact eq_false_of_ne_true hp

theorem head_stripIf_not {p : Char → Bool} {l : List Char} {c : Char} {r : List Char}
    (h : stripIf p l = c :: r) : p c = false := by
  rw [stripIf, dropTrailingIf_eq] at h
  have h2 : (l.dropWhile p).reverse.dropWhile p ≠ [] := by
    intro hc; rw [hc] at h; exact List.noConfusion h
  cases hd : l.dropWhile p with
  | nil => rw [hd] at h2; exact absurd rfl h2
  | cons y ys =>
    have hy : p y = false := head_dropWhile_not hd
    -- the reversed-dropWhile result is a suffix of y :: ys ending where it started
    have hdec := List.takeWhile_append_dropWhile p (l.dropWhile p).reverse
    have : l.dropWhile p = ((l.dropWhile p).reverse.dropWhile p).reverse ++
        ((l.dropWhile p).reverse.takeWhile p).reverse := by
      conv_lhs => rw [← List.reverse_reverse (l.dropWhile p), ← hdec]
      rw [List.reverse_append]
    rw [h, hd] at this
    have h0 : y = c := by
      have h3 := congrArg List.head? this
      simpa using h3
    rw [← h0]; exact hy

theorem last_stripIf_not {p : Char → Bool} {l : List Char} {c : Char}
    (h : (stripIf p l).getLast? = some c) : p c = false := by
  rw [stripIf, dropTrailingIf_eq, List.getLast?_reverse] at h
  cases hd : (l.dropWhile p).reverse.dropWhile p with
  | nil => rw [hd] at h; exact Option.noConfusion h
  | cons y ys =>
    rw [hd] at h
    have : y = c := by simpa using h
    rw [← this]; exact head_dropWhile_not hd

theorem collapseHyphens_cons (a : Char) (l : List Char) :
    ∃ r, collapseHyphens (a :: l) = a :: r := by
  induction l generalizing a with
  | nil => exact ⟨[], rfl⟩
  | cons b rest ih =>
    simp only [collapseHyphens]
    by_cases h : (a == '-' && b == '-') = true
    · rw [if_pos h]
      obtain ⟨r, hr⟩ := ih b
      simp only [Bool.and_eq_true, beq_iff_eq] at h
      exact ⟨r, by rw [hr, h.1, h.2]⟩
    · rw [if_neg h]
      exact ⟨_, rfl⟩

theorem mem_collapseHyphens_sub {l : List Char} {x : Char}
    (h : x ∈ collapseHyphens l) : x ∈ l := by
  induction l with
  | nil => simpa [collapseHyphens] using h
  | cons a l ih =>
    cases l with
    | nil => simpa [collapseHyphens] using h
    | cons b rest =>
      simp only [collapseHyphens] at h
      by_cases hb : (a == '-' && b == '-') = true
      · rw [if_pos hb] at h
        exact List.mem_cons_of_mem a (ih h)
      · rw [if_neg hb] at h
        rcases List.mem_cons.mp h with h1 | h2
        · exact h1 ▸ List.mem_cons_self a _
        · exact List.mem_cons_of_mem a (ih h2)

theorem mem_collapseHyphens_of_ne {l : List Char} {x : Char}
    (h : x ∈ l) (hx : x ≠ '-') : x ∈ collapseHyphens l := by
  induction l with
  | nil => simpa using h
  | cons a l ih =>
    cases l with
    | nil => simpa [collapseHyphens] using h
    | cons b rest =>
      simp only [collapseHyphens]
      by_cases hb : (a == '-' && b == '-') = true
      · rw [if_pos hb]
        rcases List.mem_cons.mp h with h1 | h2
        · simp only [Bool.and_eq_true, beq_iff_eq] at hb
          exact absurd (h1 ▸ hb.1) hx
        · exact ih h2
      · rw [if_neg hb]
        rcases List.mem_cons.mp h with h1 | h2
        · exact h1 ▸ List.mem_cons_self a _
        · exact List.mem_cons_of_mem a (ih h2)

theorem noDouble_tail {a : Char} {l : List Char}
    (h : noDouble (a :: l) = true) : noDouble l = true := by
  cases l with
  | nil => rfl
  | cons b r =>
    simp only [noDouble, Bool.and_eq_true] at h
    exact h.2

theorem noDouble_collapseHyphens (l : List Char) :
    noDouble (collapseHyphens l) = true := by
  induction l with
  | nil => rfl
  | cons a l ih =>
    cases l with
    | nil => rfl
    | cons b rest =>
      simp only [collapseHyphens]
      by_cases h : (a == '-' && b == '-') = true
      · rw [if_pos h]
        simpa [collapseHyphens] using ih
      · rw [if_neg h]
        obtain ⟨r, hr⟩ := collapseHyphens_cons b rest
        have ihr : noDouble (b :: r) = true := by
          rw [← hr]; simpa [collapseHyphens] using ih
        rw [hr]
        show (!(a == '-' && b == '-') && noDouble (b :: r)) = true
        rw [eq_false_of_ne_true h, ihr]
        rfl

theorem noDouble_append_left {l1 l2 : List Char}
    (h : noDouble (l1 ++ l2) = true) : noDouble l1 = true := by
  induction l1 with
  | nil => rfl
  | cons a l ih =>
    cases l with
    | nil => rfl
    | cons b r =>
      have h' : noDouble (a :: b :: (r ++ l2)) = true := by simpa using h
      simp only [noDouble, Bool.and_eq_true] at h'
      have h1 := h'.1
      have h2 : noDouble ((b :: r) ++ l2) = true := by simpa using h'.2
      show (!(a == '-' && b == '-') && noDouble (b :: r)) = true
      rw [h1, ih h2]
      rfl

theorem noDouble_dropWhile {p : Char → Bool} {l : List Char}
    (h : noDouble l = true) : noDouble (l.dropWhile p) = true := by
  induction l with
  | nil => exact h
  | cons a l ih =>
    rw [List.dropWhile_cons]
    by_cases hp : p a
    · rw [if_pos hp]
      exact ih (noDouble_tail h)
    · rwa [if_neg hp]

theorem dropTrailingIf_append (p : Char → Bool) (l : List Char) :
    l = dropTrailingIf p l ++ (l.reverse.takeWhile p).reverse := by
  rw [dropTrailingIf_eq]
  conv_lhs => rw [← List.reverse_reverse l,
    ← List.takeWhile_append_dropWhile p l.reverse]
  rw [List.reverse_append]

theorem noDouble_dropTrailingIf {p : Char → Bool} {l : List Char}
    (h : noDouble l = true) : noDouble (dropTrailingIf p l) = true := by
  have hd := dropTrailingIf_append p l
  rw [hd] at h
  exact noDouble_append_left h

theorem noDouble_stripIf {p : Char → Bool} {l : List Char}
    (h : noDouble l = true) : noDouble (stripIf p l) = true :=
  noDouble_dropTrailingIf (noDouble_dropWhile h)

theorem mem_stripIf_of_not {p : Char → Bool} {l : List Char} {x : Char}
    (hx : x ∈ l) (hp : p x = false) : x ∈ stripIf p l := by
  obtain ⟨front, back, hl, hf, hb⟩ := stripIf_decomp p l
  rw [hl] at hx
  rcases List.mem_append.mp hx with h1 | h2
  · rcases List.mem_append.mp h1 with h3 | h4
    · rw [hf x h3] at hp; exact Bool.noConfusion hp
    · exact h4
  · rw [hb x h2] at hp; exact Bool.noConfusion hp

theorem specKeep_pyLowerChar_of_keepChar {c : Char} (h : keepChar c = true) :
    specKeep (pyLowerChar c) = true := by
  simp only [keepChar, Bool.or_eq_true, Bool.and_eq_true, decide_eq_true_eq,
    beq_iff_eq] at h
  rw [pyLowerChar]
  by_cases h1 : (65 ≤ c.toNat && c.toNat ≤ 90) = true
  · rw [if_pos h1]
    simp only [Bool.and_eq_true, decide_eq_true_eq] at h1
    have hr := char_toNat_ofNat (c.toNat + 32) (by omega)
    simp only [specKeep, hr, Bool.or_eq_true, Bool.and_eq_true, decide_eq_true_eq,
      beq_iff_eq]
    omega
  · rw [if_neg h1]
    simp only [Bool.and_eq_true, decide_eq_true_eq] at h1
    by_cases h2 : (c == 'K') = true
    · have := beq_iff_eq.mp h2
      subst this
      simp at h
    · rw [if_neg h2]
      by_cases h3 : (c == 'ſ') = true
      · have := beq_iff_eq.mp h3
        subst this
        simp at h
      · rw [if_neg h3]
        simp only [specKeep, Bool.or_eq_true, Bool.and_eq_true, decide_eq_true_eq,
          beq_iff_eq]
        omega

theorem pyLowerChar_strong_ne {c : Char} (h : strongKeep c = true) :
    pyLowerChar c ≠ '-' := by
  simp only [strongKeep, Bool.and_eq_true, Bool.not_eq_true', beq_eq_false_iff_ne,
    ne_eq] at h
  obtain ⟨hk, hne⟩ := h
  simp only [keepChar, Bool.or_eq_true, Bool.and_eq_true, decide_eq_true_eq,
    beq_iff_eq] at hk
  rw [pyLowerChar]
  by_cases h1 : (65 ≤ c.toNat && c.toNat ≤ 90) = true
  · rw [if_pos h1]
    simp only [Bool.and_eq_true, decide_eq_true_eq] at h1
    intro he
    have h32 := congrArg Char.toNat he
    rw [char_toNat_ofNat (c.toNat + 32) (by omega)] at h32
    have h45 : ('-').toNat = 45 := by decide
    rw [h45] at h32
    omega
  · rw [if_neg h1]
    simp only [Bool.and_eq_true, decide_eq_true_eq] at h1
    by_cases h2 : (c == 'K') = true
    · have := beq_iff_eq.mp h2
      subst this
      simp at hk
    · rw [if_neg h2]
      by_cases h3 : (c == 'ſ') = true
      · have := beq_iff_eq.mp h3
        subst this
        simp at hk
      · rw [if_neg h3]
        exact hne

theorem mapStep_eq_hyphen {c : Char} (h : strongKeep c = false) :
    pyLowerChar (if keepChar c then c else '-') = '-' := by
  by_cases hk : keepChar c = true
  · rw [if_pos hk]
    have hc : (c == '-') = true := by
      rw [strongKeep, hk] at h
      simpa using h
    rw [beq_iff_eq.mp hc]
    decide
  · rw [if_neg hk]
    decide

theorem string_mk_ne_empty {l : List Char} (h : l ≠ []) : String.mk l ≠ "" := by
  intro he
  exact h (by simpa using congrArg String.data he)

theorem sanitize_id_ne_empty_of_strong {s : String} {c : Char}
    (hc : c ∈ s.data) (hs : strongKeep c = true) : sanitize_id s ≠ "" := by
  rw [sanitize_id]
  apply string_mk_ne_empty
  have hk : keepChar c = true := by
    rw [strongKeep, Bool.and_eq_true] at hs
    exact hs.1
  have h1 : pyLowerChar c ∈
      (s.data.map fun x => if keepChar x then x else '-').map pyLowerChar := by
    apply List.mem_map_of_mem
    have : (if keepChar c then c else '-') = c := if_pos hk
    rw [← this]
    exact List.mem_map_of_mem _ hc
  have hne : pyLowerChar c ≠ '-' := pyLowerChar_strong_ne hs
  have h2 := mem_collapseHyphens_of_ne h1 hne
  have h3 : pyLowerChar c ∈ stripIf (· == '-') (collapseHyphens
      ((s.data.map fun x => if keepChar x then x else '-').map pyLowerChar)) := by
    apply mem_stripIf_of_not h2
    simpa using hne
  intro hnil
  rw [hnil] at h3
  exact List.not_mem_nil _ h3

theorem all_hyphen_stripIf_nil {l : List Char}
    (h : ∀ x ∈ l, x = '-') : stripIf (· == '-') l = [] := by
  have hd : l.dropWhile (· == '-') = [] := by
    rw [List.dropWhile_eq_nil_iff]
    intro x hx
    simp [h x hx]
  rw [stripIf, hd]
  rfl

theorem sanitize_id_eq_empty_of_no_strong {s : String}
    (h : ∀ c ∈ s.data, strongKeep c = false) : sanitize_id s = "" := by
  rw [sanitize_id]
  have hall : ∀ x ∈ (s.data.map fun c => if keepChar c then c else '-').map pyLowerChar,
      x = '-' := by
    intro x hx
    obtain ⟨y, hy, hxy⟩ := List.mem_map.mp hx
    obtain ⟨z, hz, hyz⟩ := List.mem_map.mp hy
    rw [← hxy, ← hyz]
    exact mapStep_eq_hyphen (h z hz)
  have hcoll : ∀ x ∈ collapseHyphens
      ((s.data.map fun c => if keepChar c then c else '-').map pyLowerChar), x = '-' :=
    fun x hx => hall x (mem_collapseHyphens_sub hx)
  rw [all_hyphen_stripIf_nil hcoll]

theorem exists_strong_of_sanitize_ne {s : String} (h : sanitize_id s ≠ "") :
    ∃ c ∈ s.data, strongKeep c = true := by
  by_contra hc
  push_neg at hc
  exact h (sanitize_id_eq_empty_of_no_strong fun c hcs =>
    eq_false_of_ne_true (hc c hcs))

theorem sanitize_id_append_ne {d q : String} (h : sanitize_id q ≠ "") :
    sanitize_id (d ++ "-" ++ q) ≠ "" := by
  obtain ⟨c, hc, hs⟩ := exists_strong_of_sanitize_ne h
  refine sanitize_id_ne_empty_of_strong ?_ hs
  rw [String.data_append]
  exact List.mem_append.mpr (Or.inr hc)

theorem ne_empty_of_pyStrip_ne {s : String} (h : pyStrip s ≠ "") : s ≠ "" := by
  intro he
  subst he
  exact h rfl

theorem sanitize_id_data (s : String) : (sanitize_id s).data =
    stripIf (· == '-') (collapseHyphens
      ((s.data.map fun c => if keepChar c then c else '-').map pyLowerChar)) := rfl

theorem pyStrip_data (s : String) : (pyStrip s).data = stripIf pyWhite s.data := rfl

/-- C9 counterexample: the claim says `sanitize` equals the reference
algorithm that lowercases FIRST; on U+212A KELVIN SIGN (whose Python
lowercase is the ASCII letter `k`) the code drops the character (it is
replaced by a hyphen before lowercasing) while the reference keeps `k`,
so the two disagree. -/
theorem sanitize_id_neq_specSanitize_cex :
    sanitize_id "K" = "" ∧ specSanitize "K" = "k" ∧
      sanitize_id "K" ≠ specSanitize "K" := by
  refine ⟨rfl, rfl, ?_⟩
  decide

/-- C9 (amended): `sanitize_id` replaces every character outside
`[a-zA-Z0-9\-.]` with a hyphen and only THEN lowercases (so a character
whose lowercase form is ASCII, such as U+212A, is dropped rather than
kept, unlike the spec's lowercase-first reference algorithm); the output
shape invariant does hold: for every input the result contains only
lowercase ASCII letters, digits, hyphens and dots, with no leading,
trailing, or doubled hyphens. -/
theorem sanitize_id_charset (s : String) :
    (sanitize_id s).data.all specKeep = true ∧
    noDouble (sanitize_id s).data = true ∧
    (∀ c r, (sanitize_id s).data = c :: r → c ≠ '-') ∧
    (∀ c, (sanitize_id s).data.getLast? = some c → c ≠ '-') := by
  rw [sanitize_id_data]
  refine ⟨?_, ?_, ?_, ?_⟩
  · rw [List.all_eq_true]
    intro x hx
    have h1 := mem_collapseHyphens_sub (mem_stripIf hx)
    obtain ⟨y, hy, hxy⟩ := List.mem_map.mp h1
    obtain ⟨z, hz, hyz⟩ := List.mem_map.mp hy
    by_cases hk : keepChar z = true
    · rw [← hxy, ← hyz, if_pos hk]
      exact specKeep_pyLowerChar_of_keepChar hk
    · rw [← hxy, ← hyz, if_neg hk]
      decide
  · exact noDouble_stripIf (noDouble_collapseHyphens _)
  · intro c r hc
    have := head_stripIf_not hc
    simpa using this
  · intro c hc
    have := last_stripIf_not hc
    simpa using this

/-- C9 witness: the shape invariant at the spec's own example input, and
an application of the head clause at a concrete decomposition. -/
theorem sanitize_id_charset_witness :
    (sanitize_id "Úsek/oddělení Č. 1!").data.all specKeep = true ∧
      ('s' : Char) ≠ '-' := by
  refine ⟨(sanitize_id_charset "Úsek/oddělení Č. 1!").1, ?_⟩
  exact (sanitize_id_charset "Úsek/oddělení Č. 1!").2.2.1 's'
    ['e', 'k', '-', 'o', 'd', 'd', '-', 'l', 'e', 'n', '-', '.', '-', '1'] (by decide)

/-- C4 counterexample: `fix_encoding` replaces a pipe with a SPACE, it
does not delete it: on `"a|b"` the result is `"a b"`, not the `"ab"` that
deletion would give. -/
theorem fix_encoding_pipe_cex :
    fix_encoding id (some "a|b") = some "a b" ∧ ("a b" : String) ≠ "ab" := by
  refine ⟨rfl, ?_⟩
  decide

/-- C4 (amended): for every string input, Text Repair replaces every pipe
character with a SPACE (rather than deleting it) and then trims leading
and trailing whitespace - so no pipe remains and the result has no
leading or trailing whitespace; every non-string input is returned
unchanged. -/
theorem fix_encoding_pipe_space (ftfy : String → String) (s : String) :
    (∃ u, fix_encoding ftfy (some s) = some u ∧
      '|' ∉ u.data ∧
      (∀ c r, u.data = c :: r → pyWhite c = false) ∧
      (∀ c, u.data.getLast? = some c → pyWhite c = false)) ∧
    fix_encoding ftfy none = none := by
  constructor
  · refine ⟨pyStrip (replaceChar '|' ' ' (replaceChar '—' '-'
      (replaceChar '–' '-' (replaceChar ' ' ' ' (ftfy s))))), rfl, ?_, ?_, ?_⟩
    · intro hmem
      rw [pyStrip_data] at hmem
      have h1 := mem_stripIf hmem
      obtain ⟨y, hy, hxy⟩ := List.mem_map.mp h1
      by_cases hp : (y == '|') = true
      · rw [if_pos hp] at hxy
        exact absurd hxy (by decide)
      · rw [if_neg hp] at hxy
        rw [hxy] at hp
        simp at hp
    · intro c r hc
      rw [pyStrip_data] at hc
      exact head_stripIf_not hc
    · intro c hc
      rw [pyStrip_data] at hc
      exact last_stripIf_not hc
  · rfl

/-- C4 witness: the amended behaviour at a concrete input. -/
theorem fix_encoding_pipe_space_witness :
    fix_encoding id (some " x|y ") = some "x y" ∧ fix_encoding id none = none := by
  refine ⟨rfl, (fix_encoding_pipe_space id " x|y ").2⟩

/-- C10: the normalizer's output never depends on the source-name
argument: `clean_dataframe` ignores `filename` entirely (the
interview-description merge is keyed on the presence of the interview
column in the table, not on the name). -/
theorem clean_dataframe_name_independent (ftfy : String → String) (df : Table)
    (n1 n2 : String) : clean_dataframe ftfy df n1 = clean_dataframe ftfy df n2 := rfl

/-- C5 counterexample: a row whose department cell is a single space
passes the row filter (the filter compares against the UNtrimmed empty
string), and Text Repair afterwards trims it away, so the output table
contains a row in which all four canonical fields are empty. -/
theorem clean_blank_row_survives_cex :
    Table.getCol (clean_dataframe id [("oddeleni", [some " "])] "f") "oddeleni" = [some ""] ∧
    Table.getCol (clean_dataframe id [("oddeleni", [some " "])] "f") "proces" = [some ""] ∧
    Table.getCol (clean_dataframe id [("oddeleni", [some " "])] "f") "popis_procesu" = [some ""] ∧
    Table.getCol (clean_dataframe id [("oddeleni", [some " "])] "f") "vazba_na_org_rad" = [some ""] ∧
    Table.nrows (clean_dataframe id [("oddeleni", [some " "])] "f") = 1 := by
  exact ⟨rfl, rfl, rfl, rfl, rfl⟩

/-- C5 (amended): the row filter drops exactly the rows whose four
canonical cells all equal the (untrimmed) empty string after the
NaN-fill and the `"?"` replacement, BEFORE Text Repair runs: every kept
row has at least one canonical cell different from `""` at that stage,
and every dropped row has all four equal to `""`.  Because the filter
precedes trimming, a whitespace-only row survives and the corresponding
output row can have all four canonical fields empty after trimming. -/
theorem keptRows_filter_semantics (df : Table) :
    (∀ r ∈ keptRows df,
      ¬(r.odd = some "" ∧ r.pro = some "" ∧ r.pop = some "" ∧ r.vaz = some "")) ∧
    (∀ r ∈ processedRows df, r ∉ keptRows df →
      (r.odd = some "" ∧ r.pro = some "" ∧ r.pop = some "" ∧ r.vaz = some "")) ∧
    (∀ ftfy, cleanRows ftfy df = (keptRows df).map (repairRow ftfy)) := by
  refine ⟨?_, ?_, fun _ => rfl⟩
  · intro r hr hcontra
    obtain ⟨h1, h2, h3, h4⟩ := hcontra
    have hk := List.of_mem_filter hr
    rw [keepRow, h1, h2, h3, h4] at hk
    simp at hk
  · intro r hmem hnot
    have hk : keepRow r = false := by
      by_contra hkt
      exact hnot (List.mem_filter.mpr ⟨hmem, eq_true_of_ne_false hkt⟩)
    rw [keepRow] at hk
    simp only [Bool.not_eq_false', Bool.and_eq_true, beq_iff_eq] at hk
    exact ⟨hk.1.1.1, hk.1.1.2, hk.1.2, hk.2⟩

/-- C5 witness: the filter semantics applied at a concrete table whose
second row is dropped and first row kept. -/
theorem keptRows_filter_semantics_witness :
    ¬((some "A" : Cell) = some "" ∧ (some "" : Cell) = some "" ∧
      (some "" : Cell) = some "" ∧ (some "" : Cell) = some "") :=
  (keptRows_filter_semantics [("oddeleni", [some "A"])]).1
    ⟨some "A", some "", some "", some "", some "", some ""⟩ (by decide)

/-- C6 counterexample: an email cell `"?"` of a surviving row is NOT
carried through unchanged - the `"?"`-placeholder replacement blanks
it. -/
theorem email_not_unchanged_cex :
    Table.getCol (clean_dataframe id [("oddeleni", [some "A"]), ("email", [some "?"])] "f")
        "email" = [some ""] ∧ (some "?" : Cell) ≠ some "" := by
  refine ⟨rfl, ?_⟩
  decide

/-- C6 (amended): the email/phone columns are carried through the column
selection, but they then undergo the same cleaning as every other
column: NaN-fill to `""`, replacement of the `"?"` placeholder by `""`,
and Text Repair; the output email column is exactly the repaired version
of the filtered rows' email cells, and every output row is the repaired
image of a processed input row that passed the filter. -/
theorem email_column_transform (ftfy : String → String) (df : Table) (fn : String) :
    (Table.hasCol df "email" = true →
      Table.getCol (clean_dataframe ftfy df fn) "email" =
        (keptRows df).map (fun r => fix_encoding ftfy r.eml)) ∧
    (∀ r ∈ cleanRows ftfy df, ∃ r0 ∈ midRows df,
      r = repairRow ftfy (replaceQRow (fillRow r0)) ∧
        keepRow (replaceQRow (fillRow r0)) = true) := by
  constructor
  · intro h
    have he : Table.getCol (clean_dataframe ftfy df fn) "email" =
        (if Table.hasCol df "email" then (cleanRows ftfy df).map CRow.eml
         else List.replicate (cleanRows ftfy df).length (some "")) := rfl
    rw [he, if_pos h, cleanRows, List.map_map]
    rfl
  · intro r hr
    rw [cleanRows] at hr
    obtain ⟨r1, hr1, hrr⟩ := List.mem_map.mp hr
    rw [keptRows] at hr1
    obtain ⟨hmem, hkeep⟩ := List.mem_filter.mp hr1
    rw [processedRows] at hmem
    obtain ⟨r0, hr0, hpr⟩ := List.mem_map.mp hmem
    exact ⟨r0, hr0, by rw [← hrr, ← hpr], by rw [hpr]; exact hkeep⟩

/-- C6 witness: the amended description at a concrete table with an
email column. -/
theorem email_column_transform_witness :
    Table.getCol (clean_dataframe id [("oddeleni", [some "A"]), ("email", [some " x "])] "f")
      "email" = (keptRows [("oddeleni", [some "A"]), ("email", [some " x "])]).map
        (fun r => fix_encoding id r.eml) :=
  (email_column_transform id [("oddeleni", [some "A"]), ("email", [some " x "])] "f").1 rfl

/- Lemmas about the table model and the deriver. -/

theorem getCol_eq_nil_of_not_hasCol {t : Table} {c : String}
    (h : Table.hasCol t c = false) : Table.getCol t c = [] := by
  rw [Table.getCol]
  have hf : t.find? (fun p => p.1 == c) = none := by
    rw [List.find?_eq_none]
    intro x hx hpx
    rw [Table.hasCol] at h
    have : t.any (fun p => p.1 == c) = true := List.any_eq_true.mpr ⟨x, hx, hpx⟩
    rw [h] at this
    exact Bool.noConfusion this
  rw [hf]

theorem hasCol_of_getCol_ne_nil {t : Table} {c : String}
    (h : Table.getCol t c ≠ []) : Table.hasCol t c = true := by
  by_contra hc
  exact h (getCol_eq_nil_of_not_hasCol (eq_false_of_ne_true hc))

theorem cellAt_of_not_hasCol {t : Table} {c : String} (i : Nat)
    (h : Table.hasCol t c = false) : Table.cellAt t c i = none := by
  rw [Table.cellAt, getCol_eq_nil_of_not_hasCol h]
  rfl

theorem mem_uniqueAux_sub {seen l : List String} {x : String}
    (h : x ∈ uniqueAux seen l) : x ∈ l := by
  induction l generalizing seen with
  | nil => simpa [uniqueAux] using h
  | cons y ys ih =>
    rw [uniqueAux] at h
    by_cases hs : seen.contains y
    · rw [if_pos hs] at h
      exact List.mem_cons_of_mem y (ih h)
    · rw [if_neg hs] at h
      rcases List.mem_cons.mp h with h1 | h2
      · exact h1 ▸ List.mem_cons_self y ys
      · exact List.mem_cons_of_mem y (ih h2)

theorem mem_uniqueAux {seen l : List String} {x : String}
    (hx : x ∈ l) (hs : x ∉ seen) : x ∈ uniqueAux seen l := by
  induction l generalizing seen with
  | nil => simp at hx
  | cons y ys ih =>
    rw [uniqueAux]
    by_cases hc : seen.contains y
    · rw [if_pos hc]
      rcases List.mem_cons.mp hx with h1 | h2
      · have hy : y ∈ seen := by simpa using hc
        exact absurd (h1 ▸ hy) hs
      · exact ih h2 hs
    · rw [if_neg hc]
      rcases List.mem_cons.mp hx with h1 | h2
      · exact h1 ▸ List.mem_cons_self y _
      · by_cases hxy : x = y
        · exact hxy ▸ List.mem_cons_self y _
        · refine List.mem_cons_of_mem y (ih h2 ?_)
          intro hmem
          rcases List.mem_cons.mp hmem with h3 | h4
          · exact hxy h3
          · exact hs h4

theorem mem_uniqueList {l : List String} {x : String} (hx : x ∈ l) :
    x ∈ uniqueList l :=
  mem_uniqueAux hx (List.not_mem_nil x)

theorem mem_insertAsc {x y : String} {l : List String} (h : x ∈ l) :
    x ∈ insertAsc y l := by
  induction l with
  | nil => simp at h
  | cons z zs ih =>
    rw [insertAsc]
    by_cases hc : pyStrLt z y = true
    · rw [if_pos hc]
      rcases List.mem_cons.mp h with h1 | h2
      · exact h1 ▸ List.mem_cons_self z _
      · exact List.mem_cons_of_mem z (ih h2)
    · rw [if_neg hc]
      exact List.mem_cons_of_mem y h

theorem self_mem_insertAsc (y : String) (l : List String) : y ∈ insertAsc y l := by
  induction l with
  | nil => exact List.mem_cons_self y []
  | cons z zs ih =>
    rw [insertAsc]
    by_cases hc : pyStrLt z y = true
    · rw [if_pos hc]
      exact List.mem_cons_of_mem z ih
    · rw [if_neg hc]
      exact List.mem_cons_self y _

theorem mem_sortAsc {x : String} {l : List String} (h : x ∈ l) :
    x ∈ sortAsc l := by
  induction l with
  | nil => simp at h
  | cons y ys ih =>
    rw [sortAsc]
    rcases List.mem_cons.mp h with h1 | h2
    · exact h1 ▸ self_mem_insertAsc x _
    · exact mem_insertAsc (ih h2)

theorem mem_sortedKeys {df : Table} {c : String} {k : String}
    (h : some k ∈ Table.getCol df c) : k ∈ sortedKeys df c := by
  rw [sortedKeys, colKeys]
  apply mem_sortAsc
  apply mem_uniqueList
  exact List.mem_filterMap.mpr ⟨some k, h, rfl⟩

theorem orgNames_append (l1 l2 : List DomainResource) :
    orgNames (l1 ++ l2) = orgNames l1 ++ orgNames l2 := by
  induction l1 with
  | nil => rfl
  | cons r rest ih =>
    cases r with
    | org o => simp [orgNames, ih]
    | plan q => simp [orgNames, ih]

theorem planTitles_append (l1 l2 : List DomainResource) :
    planTitles (l1 ++ l2) = planTitles l1 ++ planTitles l2 := by
  induction l1 with
  | nil => rfl
  | cons r rest ih =>
    cases r with
    | org o => simp [planTitles, ih]
    | plan q => simp [planTitles, ih]

theorem orgNames_planFor (df : Table) (dept : String) (gidx : List Nat)
    (proc : String) : orgNames (planFor df dept gidx proc) = [] := by
  rw [planFor]
  by_cases h1 : (pyStrip proc == "") = true
  · rw [if_pos h1]; rfl
  · rw [if_neg h1]
    by_cases h2 : (sanitize_id proc == "") = true
    · simp only [if_pos h2]; rfl
    · simp only [if_neg h2]; rfl

theorem planTitles_planFor (df : Table) (dept : String) (gidx : List Nat)
    (proc : String) : planTitles (planFor df dept gidx proc) =
      if (pyStrip proc != "") && (sanitize_id proc != "") then [proc] else [] := by
  rw [planFor]
  by_cases h1 : (pyStrip proc == "") = true
  · rw [if_pos h1]
    have : (pyStrip proc != "") = false := by simpa using h1
    rw [this]
    rfl
  · rw [if_neg h1]
    have hb1 : (pyStrip proc != "") = true := by simpa using h1
    by_cases h2 : (sanitize_id proc == "") = true
    · simp only [if_pos h2]
      have : (sanitize_id proc != "") = false := by simpa using h2
      rw [hb1, this]
      rfl
    · simp only [if_neg h2]
      have : (sanitize_id proc != "") = true := by simpa using h2
      rw [hb1, this]
      rfl

theorem orgNames_plansFor (df : Table) (dept : String) (gidx : List Nat) :
    orgNames (plansFor df dept gidx) = [] := by
  rw [plansFor]
  by_cases h : Table.hasCol df "proces" = true
  · rw [if_pos h]
    generalize colKeys ((gidx.map fun i => Table.cellAt df "proces" i)) = ks
    induction ks with
    | nil => rfl
    | cons q qs ih =>
      rw [List.map_cons, List.flatten_cons, orgNames_append, orgNames_planFor, ih]
      rfl
  · rw [if_neg h]
    rfl

theorem planTitles_plansFor (df : Table) (dept : String) (gidx : List Nat)
    (h : Table.hasCol df "proces" = true) :
    planTitles (plansFor df dept gidx) =
      (colKeys ((gidx.map fun i => Table.cellAt df "proces" i))).filter
        (fun q => (pyStrip q != "") && (sanitize_id q != "")) := by
  rw [plansFor, if_pos h]
  generalize colKeys ((gidx.map fun i => Table.cellAt df "proces" i)) = ks
  induction ks with
  | nil => rfl
  | cons q qs ih =>
    rw [List.map_cons, List.flatten_cons, planTitles_append, planTitles_planFor, ih,
      List.filter_cons]
    by_cases hc : ((pyStrip q != "") && (sanitize_id q != "")) = true
    · rw [if_pos hc, hc]
      rfl
    · rw [if_neg hc, eq_false_of_ne_true hc]
      rfl

theorem deptResources_ok_cases {df : Table} {parent : Option Cell} {dept : String}
    {rs : List DomainResource} (h : deptResources df parent dept = Except.ok rs) :
    (pyStrip dept = "" ∧ rs = []) ∨
    (pyStrip dept ≠ "" ∧ Table.hasCol df "vazba_na_org_rad" = true ∧
      rs = DomainResource.org
        { id := sanitize_id dept, name := dept, active := true,
          text := narrativeFor dept (relValues df (groupIdx df "oddeleni" dept)),
          partOf := parentRef parent dept } ::
        plansFor df dept (groupIdx df "oddeleni" dept)) := by
  rw [deptResources] at h
  by_cases h1 : (pyStrip dept == "") = true
  · rw [if_pos h1] at h
    exact Or.inl ⟨by simpa using h1, by injection h with h2; exact h2.symm⟩
  · rw [if_neg h1] at h
    by_cases h2 : (!Table.hasCol df "vazba_na_org_rad") = true
    · rw [if_pos h2] at h
      exact Except.noConfusion h
    · rw [if_neg h2] at h
      refine Or.inr ⟨by simpa using h1, by simpa using h2, ?_⟩
      injection h with h3
      exact h3.symm

theorem deptLoop_cons_ok {df : Table} {parent : Option Cell} {k : String}
    {ks : List String} {rs : List DomainResource}
    (h : deptLoop df parent (k :: ks) = Except.ok rs) :
    ∃ r rest, deptResources df parent k = Except.ok r ∧
      deptLoop df parent ks = Except.ok rest ∧ rs = r ++ rest := by
  rw [deptLoop] at h
  cases h1 : deptResources df parent k with
  | error e => rw [h1] at h; exact Except.noConfusion h
  | ok r =>
    rw [h1] at h
    cases h2 : deptLoop df parent ks with
    | error e => rw [h2] at h; exact Except.noConfusion h
    | ok rest =>
      rw [h2] at h
      injection h with h3
      exact ⟨r, rest, rfl, rfl, h3.symm⟩

theorem deptLoop_orgNames {df : Table} {parent : Option Cell} :
    ∀ (ks : List String) (rs : List DomainResource),
      deptLoop df parent ks = Except.ok rs →
      orgNames rs = ks.filter (fun k => pyStrip k != "") := by
  intro ks
  induction ks with
  | nil =>
    intro rs h
    rw [deptLoop] at h
    injection h with h1
    rw [← h1]
    rfl
  | cons k ks ih =>
    intro rs h
    obtain ⟨r, rest, h1, h2, h3⟩ := deptLoop_cons_ok h
    rw [h3, orgNames_append, ih rest h2, List.filter_cons]
    rcases deptResources_ok_cases h1 with ⟨hb, hr⟩ | ⟨hb, _, hr⟩
    · have : (pyStrip k != "") = false := by simp [hb]
      rw [this, hr]
      rfl
    · have : (pyStrip k != "") = true := bne_iff_ne.mpr hb
      rw [this, hr]
      simp only [if_true]
      rw [orgNames]
      rw [orgNames_plansFor]
      rfl

theorem org_mem_deptLoop {df : Table} {parent : Option Cell} :
    ∀ (ks : List String) (rs : List DomainResource),
      deptLoop df parent ks = Except.ok rs →
      ∀ k ∈ ks, pyStrip k ≠ "" →
        ∃ o, DomainResource.org o ∈ rs ∧ o.name = k ∧ o.id = sanitize_id k ∧
          o.partOf = parentRef parent k := by
  intro ks
  induction ks with
  | nil => intro rs h k hk; simp at hk
  | cons k' ks ih =>
    intro rs h k hk hkb
    obtain ⟨r, rest, h1, h2, h3⟩ := deptLoop_cons_ok h
    rcases List.mem_cons.mp hk with he | hm
    · subst he
      rcases deptResources_ok_cases h1 with ⟨hb, _⟩ | ⟨_, _, hr⟩
      · exact absurd hb hkb
      · refine ⟨⟨sanitize_id k, k, true,
            narrativeFor k (relValues df (groupIdx df "oddeleni" k)),
            parentRef parent k⟩, ?_, rfl, rfl, rfl⟩
        rw [h3, hr]
        exact List.mem_append.mpr (Or.inl (List.mem_cons_self _ _))
    · obtain ⟨o, ho, h4, h5, h6⟩ := ih rest h2 k hm hkb
      exact ⟨o, h3 ▸ List.mem_append.mpr (Or.inr ho), h4, h5, h6⟩

theorem plan_mem_planFor {df : Table} {dept : String} {gidx : List Nat}
    {proc : String} {q : PlanDefinition}
    (h : DomainResource.plan q ∈ planFor df dept gidx proc) :
    q.title = proc ∧ q.id = sanitize_id (dept ++ "-" ++ proc) ∧
      q.name = sanitize_id proc ∧ sanitize_id proc ≠ "" ∧
      q.publisher = dept ∧ q.status = "active" ∧
      q.description = String.intercalate "; " (processDescs df
        (gidx.filter (fun i => Table.cellAt df "proces" i == some proc))) := by
  rw [planFor] at h
  by_cases h1 : (pyStrip proc == "") = true
  · rw [if_pos h1] at h
    simp at h
  · rw [if_neg h1] at h
    by_cases h2 : (sanitize_id proc == "") = true
    · simp only [if_pos h2] at h
      simp at h
    · simp only [if_neg h2] at h
      have hq : DomainResource.plan q = DomainResource.plan
          ⟨sanitize_id (dept ++ "-" ++ proc), "active", sanitize_id proc, proc, dept,
            String.intercalate "; " (processDescs df
              (gidx.filter (fun i => Table.cellAt df "proces" i == some proc)))⟩ := by
        simpa using h
      injection hq with hq2
      rw [hq2]
      exact ⟨rfl, rfl, rfl, by simpa using h2, rfl, rfl, rfl⟩

theorem plan_mem_plansFor {df : Table} {dept : String} {gidx : List Nat}
    {q : PlanDefinition} (h : DomainResource.plan q ∈ plansFor df dept gidx) :
    ∃ proc, DomainResource.plan q ∈ planFor df dept gidx proc := by
  rw [plansFor] at h
  by_cases hc : Table.hasCol df "proces" = true
  · rw [if_pos hc] at h
    obtain ⟨l, hl, hql⟩ := List.mem_flatten.mp h
    obtain ⟨proc, _, hpl⟩ := List.mem_map.mp hl
    exact ⟨proc, hpl ▸ hql⟩
  · rw [if_neg hc] at h
    simp at h

theorem plan_mem_deptResources {df : Table} {parent : Option Cell} {dept : String}
    {rs : List DomainResource} {q : PlanDefinition}
    (h : deptResources df parent dept = Except.ok rs)
    (hq : DomainResource.plan q ∈ rs) :
    DomainResource.plan q ∈ plansFor df dept (groupIdx df "oddeleni" dept) := by
  rcases deptResources_ok_cases h with ⟨_, hr⟩ | ⟨_, _, hr⟩
  · rw [hr] at hq; simp at hq
  · rw [hr] at hq
    rcases List.mem_cons.mp hq with h1 | h2
    · exact absurd h1 (by simp)
    · exact h2

theorem plan_mem_deptLoop {df : Table} {parent : Option Cell} :
    ∀ (ks : List String) (rs : List DomainResource),
      deptLoop df parent ks = Except.ok rs →
      ∀ q, DomainResource.plan q ∈ rs →
        ∃ dept, DomainResource.plan q ∈ plansFor df dept (groupIdx df "oddeleni" dept) := by
  intro ks
  induction ks with
  | nil =>
    intro rs h q hq
    rw [deptLoop] at h
    injection h with h1
    rw [← h1] at hq
    simp at hq
  | cons k ks ih =>
    intro rs h q hq
    obtain ⟨r, rest, h1, h2, h3⟩ := deptLoop_cons_ok h
    rw [h3] at hq
    rcases List.mem_append.mp hq with hm | hm
    · exact ⟨k, plan_mem_deptResources h1 hm⟩
    · exact ih rest h2 q hm

theorem plan_mem_tableResources {df : Table} {rs : List DomainResource}
    {q : PlanDefinition} (h : tableResources df = Except.ok rs)
    (hq : DomainResource.plan q ∈ rs) :
    ∃ dept, DomainResource.plan q ∈ plansFor df dept (groupIdx df "oddeleni" dept) := by
  rw [tableResources] at h
  by_cases hc : (!Table.hasCol df "oddeleni") = true
  · rw [if_pos hc] at h
    injection h with h1
    rw [← h1] at hq
    simp at hq
  · rw [if_neg hc] at h
    exact plan_mem_deptLoop _ rs h q hq

theorem plan_mem_create :
    ∀ (dfs : List (String × Table)) (rs : List DomainResource),
      create_fhir_resources dfs = Except.ok rs →
      ∀ q, DomainResource.plan q ∈ rs →
        ∃ df dept, DomainResource.plan q ∈ plansFor df dept (groupIdx df "oddeleni" dept) := by
  intro dfs
  induction dfs with
  | nil =>
    intro rs h q hq
    rw [create_fhir_resources] at h
    injection h with h1
    rw [← h1] at hq
    simp at hq
  | cons p rest ih =>
    intro rs h q hq
    obtain ⟨nm, df⟩ := p
    rw [create_fhir_resources] at h
    cases h1 : tableResources df with
    | error e => rw [h1] at h; exact Except.noConfusion h
    | ok r =>
      rw [h1] at h
      cases h2 : create_fhir_resources rest with
      | error e => rw [h2] at h; exact Except.noConfusion h
      | ok rs2 =>
        rw [h2] at h
        injection h with h3
        rw [← h3] at hq
        rcases List.mem_append.mp hq with hm | hm
        · obtain ⟨dept, hd⟩ := plan_mem_tableResources h1 hm
          exact ⟨df, dept, hd⟩
        · exact ih rs2 h2 q hm

theorem deptResources_ok_of_hasRel {df : Table} {parent : Option Cell} {dept : String}
    (h : Table.hasCol df "vazba_na_org_rad" = true) :
    ∃ r, deptResources df parent dept = Except.ok r := by
  rw [deptResources]
  by_cases h1 : (pyStrip dept == "") = true
  · rw [if_pos h1]
    exact ⟨[], rfl⟩
  · rw [if_neg h1]
    have : (!Table.hasCol df "vazba_na_org_rad") = false := by rw [h]; rfl
    rw [this]
    exact ⟨_, by rw [if_neg (by simp)]⟩

theorem deptLoop_ok_of_hasRel {df : Table} {parent : Option Cell}
    (h : Table.hasCol df "vazba_na_org_rad" = true) :
    ∀ ks : List String, ∃ rs, deptLoop df parent ks = Except.ok rs := by
  intro ks
  induction ks with
  | nil => exact ⟨[], rfl⟩
  | cons k ks ih =>
    obtain ⟨r, hr⟩ := @deptResources_ok_of_hasRel df parent k h
    obtain ⟨rest, hrest⟩ := ih
    refine ⟨r ++ rest, ?_⟩
    rw [deptLoop, hr, hrest]

theorem tableResources_ok {df : Table}
    (h : Table.hasCol df "oddeleni" = true → Table.hasCol df "vazba_na_org_rad" = true) :
    ∃ rs, tableResources df = Except.ok rs := by
  rw [tableResources]
  by_cases h1 : Table.hasCol df "oddeleni" = true
  · have : (!Table.hasCol df "oddeleni") = false := by rw [h1]; rfl
    rw [this, if_neg (by simp)]
    exact deptLoop_ok_of_hasRel (h h1) _
  · have : (!Table.hasCol df "oddeleni") = true := by
      rw [eq_false_of_ne_true h1]; rfl
    rw [this, if_pos rfl]
    exact ⟨[], rfl⟩

/-- C1 counterexample: pandas `groupby` sorts its keys (the source never
passes `sort=False`), so the department groups of a table whose rows
hold departments `b` then `a` are emitted as `a`, `b` - the
first-appearance order would be `b`, `a`. -/
theorem deriver_group_order_cex :
    resultOrgNames (create_fhir_resources
      [("t", [("oddeleni", [some "b", some "a"]), ("vazba_na_org_rad", [none, none])])])
      = ["a", "b"] ∧
    firstAppearanceKeys [("oddeleni", [some "b", some "a"]),
      ("vazba_na_org_rad", [none, none])] "oddeleni" = ["b", "a"] ∧
    (["a", "b"] : List String) ≠ ["b", "a"] := by
  refine ⟨rfl, rfl, by decide⟩

/-- C1 (amended): department groups are emitted in ASCENDING code-point
order of the department value (pandas groupby sorts keys), not
first-appearance order, and process groups within a department likewise
in ascending order of the process value; the output order is fully
determined by the collection supply order and these two sorted key
orders: the organization names of a derivation are exactly the sorted
distinct non-blank department keys, and the plan titles of a department
group are exactly the sorted distinct non-blank, sanitizable process
keys of that group. -/
theorem deriver_group_order :
    (∀ df rs, tableResources df = Except.ok rs →
      orgNames rs = (sortedKeys df "oddeleni").filter (fun k => pyStrip k != "")) ∧
    (∀ df parent dept rs, deptResources df parent dept = Except.ok rs →
      pyStrip dept ≠ "" → Table.hasCol df "proces" = true →
      planTitles rs = (colKeys ((groupIdx df "oddeleni" dept).map
          (fun i => Table.cellAt df "proces" i))).filter
        (fun q => (pyStrip q != "") && (sanitize_id q != ""))) := by
  constructor
  · intro df rs h
    rw [tableResources] at h
    by_cases hc : (!Table.hasCol df "oddeleni") = true
    · rw [if_pos hc] at h
      injection h with h1
      rw [← h1]
      have hg : Table.getCol df "oddeleni" = [] :=
        getCol_eq_nil_of_not_hasCol (by simpa using hc)
      rw [sortedKeys, hg]
      rfl
    · rw [if_neg hc] at h
      exact deptLoop_orgNames _ rs h
  · intro df parent dept rs h hb hp
    rcases deptResources_ok_cases h with ⟨hb2, _⟩ | ⟨_, _, hr⟩
    · exact absurd hb2 hb
    · rw [hr]
      show planTitles (plansFor df dept (groupIdx df "oddeleni" dept)) = _
      exact planTitles_plansFor df dept _ hp

/-- C1 witness: the amended order statement at a concrete two-department
table. -/
theorem deriver_group_order_witness :
    ∃ rs, tableResources [("oddeleni", [some "b", some "a"]),
        ("vazba_na_org_rad", [none, none])] = Except.ok rs ∧
      orgNames rs = ["a", "b"] := by
  have hok : (tableResources [("oddeleni", [some "b", some "a"]),
      ("vazba_na_org_rad", [none, none])]).isOk = true := by decide
  cases h : tableResources [("oddeleni", [some "b", some "a"]),
      ("vazba_na_org_rad", [none, none])] with
  | error e => rw [h] at hok; exact Bool.noConfusion hok
  | ok rs =>
    refine ⟨rs, rfl, ?_⟩
    rw [deriver_group_order.1 _ rs h]
    decide

/-- C2 counterexample: a table that has the department column but lacks
the `vazba_na_org_rad` column makes the deriver read
`group[relation_col]` on a missing key, which raises a `KeyError` - the
batch aborts instead of proceeding best-effort. -/
theorem deriver_keyerror_cex :
    create_fhir_resources [("t", [("oddeleni", [some "A"])])] =
      Except.error "KeyError: vazba_na_org_rad" := rfl

/-- C2 (amended): the Entity Deriver never raises provided every
collection that has the department column also has the mandate-relation
column (the department and process columns themselves, and the optional
contact columns, may be absent without error; a collection without the
department column is skipped); with a department column present but the
mandate-relation column absent, a non-blank department group raises a
key-lookup error. -/
theorem deriver_total_with_relation (dfs : List (String × Table))
    (h : ∀ p ∈ dfs, Table.hasCol p.2 "oddeleni" = true →
      Table.hasCol p.2 "vazba_na_org_rad" = true) :
    ∃ rs, create_fhir_resources dfs = Except.ok rs := by
  induction dfs with
  | nil => exact ⟨[], rfl⟩
  | cons p rest ih =>
    obtain ⟨nm, df⟩ := p
    obtain ⟨r, hr⟩ := tableResources_ok (h _ (List.mem_cons_self _ _))
    obtain ⟨rs2, hrs2⟩ := ih (fun p hp => h p (List.mem_cons_of_mem _ hp))
    refine ⟨r ++ rs2, ?_⟩
    rw [create_fhir_resources, hr, hrs2]

/-- C2 witness: the totality statement at a concrete mapping. -/
theorem deriver_total_with_relation_witness :
    ∃ rs, create_fhir_resources [("t", [("oddeleni", [some "A"]),
      ("vazba_na_org_rad", [none])])] = Except.ok rs :=
  deriver_total_with_relation _ (by decide)

/-- C3 counterexample: a department name with no sanitizable characters
produces an Organization whose id is the empty string - organizations
are NOT skipped on an empty sanitized token (only processes are), so the
output does contain an entity with an empty id. -/
theorem org_empty_id_cex :
    resultOrgIds (create_fhir_resources [("t", [("oddeleni", [some "!"]),
      ("vazba_na_org_rad", [none])])]) = [""] := rfl

/-- C3 (amended): only PROCESS entities are skipped (with a diagnostic)
when the sanitized process name is empty, and consequently every
PlanDefinition in the output has a non-empty `name` and a non-empty
`id`; Organization entities are constructed without any such check, so
an organization with an empty id can appear in the output. -/
theorem plan_ids_nonempty (dfs : List (String × Table)) (rs : List DomainResource)
    (h : create_fhir_resources dfs = Except.ok rs) :
    ∀ q, DomainResource.plan q ∈ rs → q.name ≠ "" ∧ q.id ≠ "" := by
  intro q hq
  obtain ⟨df, dept, hmem⟩ := plan_mem_create dfs rs h q hq
  obtain ⟨proc, hpf⟩ := plan_mem_plansFor hmem
  obtain ⟨ht, hid, hname, hsan, _, _, _⟩ := plan_mem_planFor hpf
  constructor
  · rw [hname]
    exact hsan
  · rw [hid]
    exact sanitize_id_append_ne hsan

/-- C3 witness: the plan-id statement at a concrete mapping that emits a
PlanDefinition. -/
theorem plan_ids_nonempty_witness :
    ∃ rs, create_fhir_resources [("t", [("oddeleni", [some "IT"]),
        ("proces", [some "Z"]), ("vazba_na_org_rad", [none])])] = Except.ok rs ∧
      ∀ q, DomainResource.plan q ∈ rs → q.name ≠ "" ∧ q.id ≠ "" := by
  have hok : (create_fhir_resources [("t", [("oddeleni", [some "IT"]),
      ("proces", [some "Z"]), ("vazba_na_org_rad", [none])])]).isOk = true := by decide
  cases h : create_fhir_resources [("t", [("oddeleni", [some "IT"]),
      ("proces", [some "Z"]), ("vazba_na_org_rad", [none])])] with
  | error e => rw [h] at hok; exact Bool.noConfusion hok
  | ok rs => exact ⟨rs, rfl, plan_ids_nonempty _ rs h⟩

/-- C7: with a non-blank first-row department `A` and a later distinct
non-blank department `B`, the Organization for `B` carries a `partOf`
reference to the sanitized token of `A` (with display name `A`), and the
Organization for `A` carries none. -/
theorem parent_linking (df : Table) (A B : String) (rs : List DomainResource)
    (hhead : (Table.getCol df "oddeleni").head? = some (some A))
    (hA : pyStrip A ≠ "") (hBmem : some B ∈ Table.getCol df "oddeleni")
    (hB : pyStrip B ≠ "") (hBA : B ≠ A)
    (hok : tableResources df = Except.ok rs) :
    (∃ o, DomainResource.org o ∈ rs ∧ o.name = B ∧
      o.partOf = some ("Organization/" ++ sanitize_id A, A)) ∧
    (∃ o, DomainResource.org o ∈ rs ∧ o.name = A ∧ o.partOf = none) := by
  have hnil : Table.getCol df "oddeleni" ≠ [] := by
    intro hc
    rw [hc] at hhead
    exact Option.noConfusion hhead
  have hcol : Table.hasCol df "oddeleni" = true := hasCol_of_getCol_ne_nil hnil
  rw [tableResources, show (!Table.hasCol df "oddeleni") = false by rw [hcol]; rfl,
    if_neg (by simp)] at hok
  have hparent : parentOrgName df = some (some A) := by
    rw [parentOrgName, hhead]
  rw [hparent] at hok
  have hAmem : some A ∈ Table.getCol df "oddeleni" := by
    cases hg : Table.getCol df "oddeleni" with
    | nil => exact absurd hg hnil
    | cons c t =>
      rw [hg] at hhead
      have hcA : c = some A := by simpa using hhead
      rw [hcA]
      exact List.mem_cons_self _ _
  have hAkeys : A ∈ sortedKeys df "oddeleni" := mem_sortedKeys hAmem
  have hBkeys : B ∈ sortedKeys df "oddeleni" := mem_sortedKeys hBmem
  have hrefB : parentRef (some (some A)) B =
      some ("Organization/" ++ sanitize_id A, A) := by
    show (if cellTruthy (some A) && (B != A) then
      some ("Organization/" ++ sanitize_id (cellStr (some A)), cellStr (some A))
      else none) = _
    have h1 : cellTruthy (some A) = true := bne_iff_ne.mpr (ne_empty_of_pyStrip_ne hA)
    have h2 : (B != A) = true := bne_iff_ne.mpr hBA
    rw [h1, h2]
    rfl
  have hrefA : parentRef (some (some A)) A = none := by
    show (if cellTruthy (some A) && (A != A) then
      some ("Organization/" ++ sanitize_id (cellStr (some A)), cellStr (some A))
      else none) = none
    have h2 : (A != A) = false := by simp
    rw [h2, Bool.and_false]
    rfl
  constructor
  · obtain ⟨o, ho, h4, _, h6⟩ := org_mem_deptLoop _ rs hok B hBkeys hB
    exact ⟨o, ho, h4, by rw [h6, hrefB]⟩
  · obtain ⟨o, ho, h4, _, h6⟩ := org_mem_deptLoop _ rs hok A hAkeys hA
    exact ⟨o, ho, h4, by rw [h6, hrefA]⟩

/-- C7 witness: the parent-linking statement at a concrete table whose
first row's department is `A` and whose second department is `B`. -/
theorem parent_linking_witness :
    ∃ rs, tableResources [("oddeleni", [some "A", some "B"]),
        ("vazba_na_org_rad", [none, none])] = Except.ok rs ∧
      ((∃ o, DomainResource.org o ∈ rs ∧ o.name = "B" ∧
        o.partOf = some ("Organization/" ++ sanitize_id "A", "A")) ∧
       (∃ o, DomainResource.org o ∈ rs ∧ o.name = "A" ∧ o.partOf = none)) := by
  have hok : (tableResources [("oddeleni", [some "A", some "B"]),
      ("vazba_na_org_rad", [none, none])]).isOk = true := by decide
  cases h : tableResources [("oddeleni", [some "A", some "B"]),
      ("vazba_na_org_rad", [none, none])] with
  | error e => rw [h] at hok; exact Bool.noConfusion hok
  | ok rs =>
    exact ⟨rs, rfl, parent_linking [("oddeleni", [some "A", some "B"]),
      ("vazba_na_org_rad", [none, none])] "A" "B" rs rfl (by decide) (by decide)
      (by decide) (by decide) h⟩

theorem processDescs_eq_specGroupDescs (df : Table) (dept proc : String) :
    processDescs df ((groupIdx df "oddeleni" dept).filter
        (fun i => Table.cellAt df "proces" i == some proc)) =
      specGroupDescs df dept proc := by
  rw [processDescs, specGroupDescs, groupIdx, List.filter_filter]
  have hidx : (List.range (Table.nrows df)).filter
      (fun i => Table.cellAt df "proces" i == some proc &&
        (Table.cellAt df "oddeleni" i == some dept)) =
      (List.range (Table.nrows df)).filter
      (fun i => Table.cellAt df "oddeleni" i == some dept &&
        (Table.cellAt df "proces" i == some proc)) := by
    apply List.filter_congr
    intro i _
    exact Bool.and_comm _ _
  rw [hidx]
  apply List.filterMap_congr
  intro i _
  by_cases h : Table.hasCol df "popis_procesu" = true
  · rw [if_pos h]
  · rw [if_neg h, cellAt_of_not_hasCol i (eq_false_of_ne_true h)]

/-- C8: every PlanDefinition of a department group has as its
description the `"; "`-join of the non-blank description values of the
rows of its (department, process) group in row order, and as its id the
sanitized token of the single combined string `department-process`. -/
theorem process_description_aggregation (df : Table) (parent : Option Cell)
    (dept : String) (rs : List DomainResource)
    (hok : deptResources df parent dept = Except.ok rs) :
    ∀ q, DomainResource.plan q ∈ rs →
      q.id = sanitize_id (dept ++ "-" ++ q.title) ∧
      q.description = String.intercalate "; " (specGroupDescs df dept q.title) := by
  intro q hq
  obtain ⟨proc, hpf⟩ := plan_mem_plansFor (plan_mem_deptResources hok hq)
  obtain ⟨ht, hid, _, _, _, _, hdesc⟩ := plan_mem_planFor hpf
  constructor
  · rw [ht, hid]
  · rw [ht, hdesc, processDescs_eq_specGroupDescs]

/-- C8 witness: the aggregation statement at the spec's own two-row
example group. -/
theorem process_description_aggregation_witness :
    ∃ rs, deptResources [("oddeleni", [some "IT", some "IT"]),
        ("proces", [some "Z", some "Z"]), ("popis_procesu", [some "D", some "T"]),
        ("vazba_na_org_rad", [none, none])] (some (some "IT")) "IT" = Except.ok rs ∧
      ∀ q, DomainResource.plan q ∈ rs →
        q.id = sanitize_id ("IT" ++ "-" ++ q.title) ∧
        q.description = String.intercalate "; "
          (specGroupDescs [("oddeleni", [some "IT", some "IT"]),
            ("proces", [some "Z", some "Z"]), ("popis_procesu", [some "D", some "T"]),
            ("vazba_na_org_rad", [none, none])] "IT" q.title) := by
  have hok : (deptResources [("oddeleni", [some "IT", some "IT"]),
      ("proces", [some "Z", some "Z"]), ("popis_procesu", [some "D", some "T"]),
      ("vazba_na_org_rad", [none, none])] (some (some "IT")) "IT").isOk = true := by decide
  cases h : deptResources [("oddeleni", [some "IT", some "IT"]),
      ("proces", [some "Z", some "Z"]), ("popis_procesu", [some "D", some "T"]),
      ("vazba_na_org_rad", [none, none])] (some (some "IT")) "IT" with
  | error e => rw [h] at hok; exact Bool.noConfusion hok
  | ok rs => exact ⟨rs, rfl, process_description_aggregation _ _ "IT" rs h⟩
